import Mathlib

/-!
Shallow embedding of the Rust line-reflow tool (src/src/lib.rs).
Strings are modelled as lists of Unicode scalar values (List Char); the Rust
code measures and indexes String buffers in UTF-8 bytes, so byte lengths and
byte-indexed splitting are modelled explicitly.  Operations that can panic in
Rust (String::drain at a non-char-boundary index) return Option, with none
standing for the panic.
-/

namespace Formatter

/-- UTF-8 encoded size of a scalar value, as Rust's String::len counts it. -/
def charBytes (c : Char) : Nat :=
  if c.toNat < 128 then 1
  else if c.toNat < 2048 then 2
  else if c.toNat < 65536 then 3
  else 4

/-- Byte length of a string, Rust String::len. -/
def strBytes : List Char → Nat
  | [] => 0
  | c :: rest => charBytes c + strBytes rest

/-- Rust char::is_whitespace: the Unicode White_Space property. -/
def is_whitespace (c : Char) : Bool :=
  decide ((9 ≤ c.toNat ∧ c.toNat ≤ 13) ∨ c.toNat = 32 ∨ c.toNat = 133 ∨
    c.toNat = 160 ∨ c.toNat = 5760 ∨ (8192 ≤ c.toNat ∧ c.toNat ≤ 8202) ∨
    c.toNat = 8232 ∨ c.toNat = 8233 ∨ c.toNat = 8239 ∨ c.toNat = 8287 ∨
    c.toNat = 12288)

/-- Rust char::is_control: the Cc general category. -/
def is_control (c : Char) : Bool :=
  decide (c.toNat < 32 ∨ (127 ≤ c.toNat ∧ c.toNat ≤ 159))

/-- Rust str::trim_end with char::is_whitespace. -/
def trimEnd (s : List Char) : List Char :=
  (s.reverse.dropWhile (fun c => is_whitespace c)).reverse

/-- Rust str::trim_start with char::is_whitespace. -/
def trimStart (s : List Char) : List Char :=
  s.dropWhile (fun c => is_whitespace c)

/-- Rust String::drain(..k).collect(): split a string at byte index k.
Returns none when k exceeds the byte length or falls inside a multi-byte
character, the cases where Rust panics. -/
def splitAtByte : Nat → List Char → Option (List Char × List Char)
  | 0, s => some ([], s)
  | _ + 1, [] => none
  | k + 1, c :: rest =>
    if charBytes c ≤ k + 1 then
      match splitAtByte (k + 1 - charBytes c) rest with
      | some (a, b) => some (c :: a, b)
      | none => none
    else none

/-- The Cli options (struct Cli in lib.rs); the substitution patterns are
passed separately, as in the code, while the replacements live here. -/
structure Cli where
  max_line_length : Nat
  break_words : Bool
  keep_trailing_whitespaces : Bool
  preserve_list_indentation : Bool
  rewrap : Bool
  replacement : List (List Char)
  deriving Repr, DecidableEq

/-- struct LineState of lib.rs; current_char and is_at_word_boundary are
per-character values and are passed as function arguments instead. -/
structure LineState where
  output_line : List Char
  has_last_word_end : Bool
  has_word : Bool
  last_word_end : Nat
  list_indentation : List Char
  has_list_indentation : Bool
  list_padding_end : Bool
  deriving Repr, DecidableEq

/-- fn write_line: the text of one emitted output line. -/
def write_line (args : Cli) (line : List Char) : List Char :=
  if args.keep_trailing_whitespaces then line else trimEnd line

/-- fn is_list_start. -/
def is_list_start (c : Char) : Bool :=
  decide (c = '*' ∨ c = '-')

/-- fn is_new_paragraph_c. -/
def is_new_paragraph_c (c : Char) : Bool :=
  is_control c || is_list_start c

/-- fn is_new_paragraph. -/
def is_new_paragraph : List Char → Bool
  | [] => true
  | c :: rest => if is_whitespace c then is_new_paragraph rest else is_new_paragraph_c c

/-- fn handle_overflow.  Result: (lines emitted, new state, whether the loop
continues with the next character).  none models the panic of
String::drain when last_word_end + 1 is not a character boundary. -/
def handle_overflow (args : Cli) (st : LineState) (b : Bool) :
    Option (List (List Char) × LineState × Bool) :=
  if args.max_line_length = 0 || strBytes st.output_line < args.max_line_length then
    some ([], st, false)
  else
    let branch : Option (List (List Char) × List Char) :=
      if args.break_words || b then
        some ([write_line args st.output_line], [])
      else if st.has_last_word_end then
        match splitAtByte (st.last_word_end + 1) st.output_line with
        | some (pre, post) => some ([write_line args pre], post)
        | none => none
      else
        some ([], st.output_line)
    match branch with
    | none => none
    | some (em, buf) =>
      let buf' := if st.has_list_indentation then st.list_indentation ++ buf else buf
      some (em, { st with output_line := buf', has_last_word_end := false }, b)

/-- fn handle_list: returns the list_found flag and the updated state. -/
def handle_list (args : Cli) (st : LineState) (c : Char) : Bool × LineState :=
  let found := args.preserve_list_indentation && !st.has_word &&
    !st.has_list_indentation && is_list_start c
  if found then
    (true, { st with has_list_indentation := true,
                     list_indentation := st.output_line ++ [' '],
                     list_padding_end := false })
  else (false, st)

/-- fn handle_word_boundary. -/
def handle_word_boundary (st : LineState) (b : Bool) : LineState :=
  if b then { st with last_word_end := strBytes st.output_line, has_last_word_end := true }
  else { st with has_word := true }

/-- fn add_list_indentation. -/
def add_list_indentation (st : LineState) (found : Bool) (c : Char) (b : Bool) : LineState :=
  if st.has_list_indentation && !found && !st.list_padding_end then
    if b then { st with list_indentation := st.list_indentation ++ [c] }
    else { st with list_padding_end := true }
  else st

/-- One iteration of the character loop of fn handle_next_line. -/
def stepChar (args : Cli) (st : LineState) (c : Char) :
    Option (List (List Char) × LineState) :=
  let b := is_whitespace c
  match handle_overflow args st b with
  | none => none
  | some (em, st1, skip) =>
    if skip then some (em, st1)
    else
      let pair := handle_list args st1 c
      let st2 := handle_word_boundary pair.2 b
      let st3 := { st2 with output_line := st2.output_line ++ [c] }
      let st4 := add_list_indentation st3 pair.1 c b
      some (em, st4)

/-- The character loop of fn handle_next_line over a whole character list. -/
def processChars (args : Cli) : LineState → List Char → Option (List (List Char) × LineState)
  | st, [] => some ([], st)
  | st, c :: rest =>
    match stepChar args st c with
    | none => none
    | some (em1, st1) =>
      match processChars args st1 rest with
      | none => none
      | some (em2, st2) => some (em1 ++ em2, st2)

/-- Rust Regex::replace restricted to literal patterns: position of the
leftmost match of p in s (for literal patterns the regex leftmost-first
match is the leftmost occurrence). -/
def firstMatchPos (p : List Char) : List Char → Option Nat
  | [] => if p = [] then some 0 else none
  | c :: rest =>
    if p.isPrefixOf (c :: rest) then some 0
    else (firstMatchPos p rest).map (· + 1)

/-- Rust Regex::replace for a literal pattern and a literal replacement:
replaces only the leftmost match, if any. -/
def replaceFirst (p repl s : List Char) : List Char :=
  match firstMatchPos p s with
  | none => s
  | some i => s.take i ++ repl ++ s.drop (i + p.length)

/-- The substitution loop of fn handle_next_line (zip_longest over patterns
and replacements: excess patterns use an empty replacement, excess
replacements are ignored). -/
def applySubstLoop : List (List Char) → List (List Char) → List Char → List Char
  | [], _, s => s
  | p :: ps, [], s => applySubstLoop ps [] (replaceFirst p [] s)
  | p :: ps, r :: rs, s => applySubstLoop ps rs (replaceFirst p r s)

/-- The fresh LineState built at the top of fn handle_next_line; only the
output_line buffer is carried over from the previous call. -/
def initState (buf : List Char) : LineState :=
  { output_line := buf, has_last_word_end := false, has_word := false,
    last_word_end := 0, list_indentation := [], has_list_indentation := false,
    list_padding_end := true }

/-- fn handle_next_line: processes one input line given the carried-over
output buffer; returns the emitted lines and the new carried buffer. -/
def handle_next_line (args : Cli) (regexes : List (List Char))
    (input_line buf : List Char) : Option (List (List Char) × List Char) :=
  let st0 := initState buf
  let flushNow := args.rewrap && !st0.output_line.isEmpty && is_new_paragraph input_line
  let em0 := if flushNow then [write_line args st0.output_line] else []
  let st1 := if flushNow then { st0 with output_line := [] } else st0
  let substituted := applySubstLoop regexes args.replacement input_line
  let joining := args.rewrap && !st1.output_line.isEmpty
  let st2 := if joining then { st1 with output_line := st1.output_line ++ [' '] } else st1
  let iter := if joining then trimStart substituted else substituted
  match processChars args st2 iter with
  | none => none
  | some (em, stF) =>
    if args.rewrap then some (em0 ++ em, stF.output_line)
    else some (em0 ++ em ++ [write_line args stF.output_line], [])

/-- fn read_lines: fold handle_next_line over a list of input lines,
threading the carried output buffer. -/
def read_lines (args : Cli) (regexes : List (List Char)) :
    List Char → List (List Char) → Option (List (List Char) × List Char)
  | buf, [] => some ([], buf)
  | buf, line :: rest =>
    match handle_next_line args regexes line buf with
    | none => none
    | some (em1, buf1) =>
      match read_lines args regexes buf1 rest with
      | none => none
      | some (em2, buf2) => some (em1 ++ em2, buf2)

/-- The final flush at the end of fn read_lines_from_input_or_files
(performed only in rewrap mode). -/
def finalFlush (args : Cli) (buf : List Char) : List (List Char) :=
  if args.rewrap then [write_line args buf] else []

/-- Whole-input processing when reading from standard input: read_lines from
an empty buffer followed by the final flush. -/
def processInput (args : Cli) (regexes : List (List Char))
    (lines : List (List Char)) : Option (List (List Char)) :=
  match read_lines args regexes [] lines with
  | none => none
  | some (em, buf) => some (em ++ finalFlush args buf)

/-- The regex-compilation loop at the top of read_lines_from_input_or_files:
compiles every pattern, stopping at the first failure.  The compiler itself
is the external regex crate and is abstracted as a function argument. -/
def compileAll (compile : List Char → Except (List Char) (List Char)) :
    List (List Char) → Except (List Char) (List (List Char))
  | [] => .ok []
  | p :: ps =>
    match compile p with
    | .error e => .error e
    | .ok r =>
      match compileAll compile ps with
      | .error e => .error e
      | .ok rs => .ok (r :: rs)

/-- The file loop of read_lines_from_input_or_files: files are named by
indices and the file system is a partial map from names to line lists; a
file that cannot be opened (none) is skipped and forces exit code 1. -/
def readFiles (args : Cli) (regexes : List (List Char))
    (fs : Nat → Option (List (List Char))) :
    Nat → List Char → List Nat → Option (Nat × List (List Char) × List Char)
  | code, buf, [] => some (code, [], buf)
  | code, buf, f :: rest =>
    match fs f with
    | none => readFiles args regexes fs 1 buf rest
    | some flines =>
      match read_lines args regexes buf flines with
      | none => none
      | some (em1, buf1) =>
        match readFiles args regexes fs code buf1 rest with
        | none => none
        | some (code2, em2, buf2) => some (code2, em1 ++ em2, buf2)

/-- fn read_lines_from_input_or_files: compile the substitution patterns
(aborting with exit code 1 and no output on failure), then read either
standard input or the named files, then perform the final rewrap flush.
Returns (exit code, emitted lines); none models a panic. -/
def read_lines_from_input_or_files (args : Cli) (patterns : List (List Char))
    (compile : List Char → Except (List Char) (List Char))
    (input_files : List Nat) (fs : Nat → Option (List (List Char)))
    (stdin : List (List Char)) : Option (Nat × List (List Char)) :=
  match compileAll compile patterns with
  | .error _ => some (1, [])
  | .ok regexes =>
    let r : Option (Nat × List (List Char) × List Char) :=
      if input_files.isEmpty then
        match read_lines args regexes [] stdin with
        | none => none
        | some (em, buf) => some (0, em, buf)
      else readFiles args regexes fs 0 [] input_files
    match r with
    | none => none
    | some (code, em, buf) => some (code, em ++ finalFlush args buf)

/-- Fuel-indexed worker for replaceAllSpec. -/
def replaceAllFuel (p repl : List Char) : Nat → List Char → List Char
  | 0, s => s
  | _ + 1, [] => []
  | f + 1, c :: rest =>
    if p ≠ [] ∧ p.isPrefixOf (c :: rest) then
      repl ++ replaceAllFuel p repl f ((c :: rest).drop p.length)
    else c :: replaceAllFuel p repl f rest

/-- Modelled from the spec's words: a substitution rule replaces all
non-overlapping matches of its pattern (for a literal pattern, every
leftmost-first occurrence).  Used only to compare against the behaviour of
the source, which calls Regex::replace (first match only). -/
def replaceAllSpec (p repl s : List Char) : List Char :=
  replaceAllFuel p repl s.length s

/-- Invariant relating the recorded word-boundary position to the buffer:
whenever has_last_word_end is set, last_word_end is the byte offset of a
whitespace character inside the buffer. -/
def WordEndInv (st : LineState) : Prop :=
  st.has_last_word_end = true →
    ∃ p w q, st.output_line = p ++ w :: q ∧ strBytes p = st.last_word_end ∧
      is_whitespace w = true

/-- Invariant for the width bound: the buffer holds at most n characters and
no list indentation is pending. -/
def WidthInv (n : Nat) (st : LineState) : Prop :=
  st.output_line.length ≤ n ∧ st.has_list_indentation = false

/-! Theorems. -/

lemma firstMatchPos_leftmost (p : List Char) :
    ∀ s i, firstMatchPos p s = some i → ∀ j, j < i → p.isPrefixOf (s.drop j) = false := by
  intro s
  induction s with
  | nil =>
    intro i h j hj
    unfold firstMatchPos at h
    by_cases hp : p = []
    · simp [hp] at h
      omega
    · simp [hp] at h
  | cons c rest ih =>
    intro i h j hj
    unfold firstMatchPos at h
    by_cases hp : p.isPrefixOf (c :: rest) = true
    · simp [hp] at h
      omega
    · rw [Bool.not_eq_true] at hp
      simp [hp] at h
      obtain ⟨i', hi', rfl⟩ := h
      match j with
      | 0 => simpa using hp
      | j' + 1 =>
        have := ih i' hi' j' (by omega)
        simpa using this

/-- C1 (amended): the substitution pipeline applies each rule, in order, to
the current result of the previous rule, and each applied rule replaces only
the first (leftmost) match of its pattern: the Rust code calls
Regex::replace, which substitutes a single match. -/
theorem substitution_pipeline_first_match (p : List Char) (ps : List (List Char))
    (r : List Char) (rs : List (List Char)) (s : List Char) (i : Nat)
    (hfind : firstMatchPos p s = some i) :
    applySubstLoop (p :: ps) (r :: rs) s = applySubstLoop ps rs (replaceFirst p r s) ∧
    applySubstLoop (p :: ps) [] s = applySubstLoop ps [] (replaceFirst p [] s) ∧
    (∀ j, j < i → p.isPrefixOf (s.drop j) = false) ∧
    replaceFirst p r s = s.take i ++ r ++ s.drop (i + p.length) := by
  refine ⟨rfl, rfl, firstMatchPos_leftmost p s i hfind, ?_⟩
  unfold replaceFirst
  rw [hfind]

/-- Witness for substitution_pipeline_first_match at pattern "oo",
replacement "00", input "foofoo" (leftmost match at index 1). -/
theorem substitution_pipeline_first_match_witness :
    ("oo".data).isPrefixOf (("foofoo".data).drop 0) = false ∧
    replaceFirst "oo".data "00".data "foofoo".data =
      ("foofoo".data).take 1 ++ "00".data ++ ("foofoo".data).drop (1 + ("oo".data).length) := by
  have h := substitution_pipeline_first_match "oo".data [] "00".data [] "foofoo".data 1
    (by decide)
  exact ⟨h.2.2.1 0 (by decide), h.2.2.2⟩

/-- C1 (counterexample): on "foofoo" the rule ("oo" to "00") is applied by
the code to the first match only, yielding "f00foo", not "f00f00" as the
replace-all reading of the spec would require. -/
theorem substitution_replace_all_cex :
    replaceAllSpec "oo".data "00".data "foofoo".data = "f00f00".data ∧
    applySubstLoop ["oo".data] ["00".data] "foofoo".data = "f00foo".data ∧
    applySubstLoop ["oo".data] ["00".data] "foofoo".data ≠
      replaceAllSpec "oo".data "00".data "foofoo".data := by
  decide

/-- C2: the code's actual output on the three bullet lines with rewrap,
preserved list indentation and width 15.  Because handle_next_line rebuilds
LineState afresh for every input line, the word-boundary and
list-indentation state of the carried buffer is lost, and the third line is
merged and then split mid-item, contradicting the expectation recorded in
the repository's own test_rewrapping test. -/
theorem rewrap_carry_actual_output :
    processInput ⟨15, false, false, true, true, []⟩ []
      ["* foo bar baz".data, "  * test1 test2".data, "    test3 test4".data] =
      some ["* foo bar baz".data, "  * test1 test2 test3".data, "test4".data] := by
  decide

/-- C5: the formatting state machine is not total: on the line
"a&lt;U+00A0&gt;b" with max_line_length 3 and break_words false, the overflow
split calls String::drain at byte index 2, which is inside the two-byte
NO-BREAK SPACE, so the Rust code panics (modelled as none). -/
theorem overflow_drain_panic_on_multibyte_whitespace :
    processInput ⟨3, false, false, false, false, []⟩ [] ["a\u00A0b".data] = none := by
  decide

/-- C3 (counterexample): with break_words = true the width bound fails in
two configurations: ("* foo", width 2, preserve_list_indentation) emits the
three-character line "  f" because the list indentation is re-inserted
without re-checking the limit, and (rewrap joining "abc" and "d" at width 3
with keep_trailing_whitespaces) emits the four-character line "abc ". -/
theorem width_bound_cex :
    (processInput ⟨2, true, false, true, false, []⟩ [] ["* foo".data] =
      some ["*".data, "  f".data, "  o".data, "  o".data] ∧ 2 < ("  f".data).length) ∧
    (processInput ⟨3, true, true, false, true, []⟩ [] ["abc".data, "d".data] =
      some ["abc ".data, "d".data] ∧ 3 < ("abc ".data).length) := by
  decide

/-- C9 (counterexample): with break_words = false, processing "abc" at
max_line_length 3 reaches a state whose buffer already has 3 bytes, and the
overflow handling for the next (non-whitespace) character leaves the buffer
unchanged at 3 >= 3: the claimed invariant fails persistently, not just
transiently, for an over-long word. -/
theorem buffer_invariant_cex :
    processChars ⟨3, false, false, false, false, []⟩ (initState []) "abc".data =
      some ([], ⟨"abc".data, false, true, 0, [], false, true⟩) ∧
    handle_overflow ⟨3, false, false, false, false, []⟩
      ⟨"abc".data, false, true, 0, [], false, true⟩ false =
      some ([], ⟨"abc".data, false, true, 0, [], false, true⟩, false) ∧
    ¬ strBytes "abc".data < 3 := by
  decide

/-- C10: with rewrap enabled the end-of-input flush happens even for empty
input, emitting exactly one empty line, while without rewrap empty input
produces no output at all. -/
theorem rewrap_final_flush_on_empty_input (args : Cli)
    (compile : List Char → Except (List Char) (List Char))
    (fs : Nat → Option (List (List Char))) :
    read_lines_from_input_or_files args [] compile [] fs [] =
      some (0, if args.rewrap then [([] : List Char)] else []) := by
  have hw : write_line args [] = [] := by
    unfold write_line trimEnd
    cases args.keep_trailing_whitespaces <;> simp
  cases hr : args.rewrap <;>
    simp [read_lines_from_input_or_files, compileAll, read_lines, finalFlush, hw, hr]

lemma handle_list_output_line (args : Cli) (st : LineState) (c : Char) :
    ((handle_list args st c).2).output_line = st.output_line := by
  unfold handle_list
  dsimp only
  split <;> rfl

lemma handle_word_boundary_output_line (st : LineState) (b : Bool) :
    (handle_word_boundary st b).output_line = st.output_line := by
  unfold handle_word_boundary
  split <;> rfl

lemma add_list_indentation_output_line (st : LineState) (found : Bool) (c : Char) (b : Bool) :
    (add_list_indentation st found c b).output_line = st.output_line := by
  unfold add_list_indentation
  split
  · split <;> rfl
  · rfl

lemma stepChar_nolimit (args : Cli) (h : args.max_line_length = 0)
    (st : LineState) (c : Char) :
    ∃ st', stepChar args st c = some ([], st') ∧
      st'.output_line = st.output_line ++ [c] := by
  have hov : handle_overflow args st (is_whitespace c) = some ([], st, false) := by
    unfold handle_overflow
    rw [h]
    simp
  simp only [stepChar, hov, reduceIte]
  refine ⟨_, rfl, ?_⟩
  simp only [add_list_indentation_output_line, handle_word_boundary_output_line,
    handle_list_output_line]

lemma processChars_nolimit (args : Cli) (h : args.max_line_length = 0) :
    ∀ (line : List Char) (st : LineState),
      ∃ st', processChars args st line = some ([], st') ∧
        st'.output_line = st.output_line ++ line := by
  intro line
  induction line with
  | nil => exact fun st => ⟨st, rfl, by simp⟩
  | cons c rest ih =>
    intro st
    obtain ⟨st1, hs1, hb1⟩ := stepChar_nolimit args h st c
    obtain ⟨st2, hs2, hb2⟩ := ih st1
    refine ⟨st2, ?_, ?_⟩
    · simp only [processChars, hs1, hs2, List.nil_append]
    · rw [hb2, hb1]
      simp

lemma handle_next_line_noop (bw pli : Bool) (repl : List (List Char)) (line : List Char) :
    handle_next_line ⟨0, bw, true, pli, false, repl⟩ [] line [] = some ([line], []) := by
  obtain ⟨st', hs, hb⟩ :=
    processChars_nolimit ⟨0, bw, true, pli, false, repl⟩ rfl line (initState [])
  simp only [initState] at hs hb
  unfold handle_next_line
  simp [applySubstLoop, initState, hs, write_line, hb]

/-- C8: with max_line_length 0, rewrap off, keep_trailing_whitespaces on and
no substitution rules, the program echoes its input unchanged, line for
line, for every input and for any values of the remaining options. -/
theorem noop_config_identity (bw pli : Bool) (repl : List (List Char))
    (lines : List (List Char)) :
    processInput ⟨0, bw, true, pli, false, repl⟩ [] lines = some lines := by
  have main : ∀ ls, read_lines ⟨0, bw, true, pli, false, repl⟩ [] [] ls = some (ls, []) := by
    intro ls
    induction ls with
    | nil => rfl
    | cons l rest ih =>
      simp only [read_lines, handle_next_line_noop, ih]
      rfl
  unfold processInput
  rw [main lines]
  simp [finalFlush]

lemma compileAll_error (compile : List Char → Except (List Char) (List Char)) :
    ∀ patterns, (∃ p ∈ patterns, ∃ e, compile p = .error e) →
      ∃ e, compileAll compile patterns = .error e := by
  intro patterns
  induction patterns with
  | nil =>
    rintro ⟨p, hp, _⟩
    simp at hp
  | cons q qs ih =>
    rintro ⟨p, hp, e, he⟩
    rcases List.mem_cons.mp hp with rfl | hmem
    · exact ⟨e, by simp only [compileAll, he]⟩
    · cases hq : compile q with
      | error e' => exact ⟨e', by simp only [compileAll, hq]⟩
      | ok r =>
        obtain ⟨e', he'⟩ := ih ⟨p, hmem, e, he⟩
        exact ⟨e', by simp only [compileAll, hq, he']⟩

/-- C6: if any substitution pattern fails to compile, the run returns exit
code 1 with no output at all, for every input source: the failure is
detected before any input line is read. -/
theorem bad_regex_aborts_before_input (args : Cli) (patterns : List (List Char))
    (compile : List Char → Except (List Char) (List Char))
    (input_files : List Nat) (fs : Nat → Option (List (List Char)))
    (stdin : List (List Char))
    (h : ∃ p ∈ patterns, ∃ e, compile p = .error e) :
    read_lines_from_input_or_files args patterns compile input_files fs stdin =
      some (1, []) := by
  obtain ⟨e, he⟩ := compileAll_error compile patterns h
  simp only [read_lines_from_input_or_files, he]

/-- Witness for bad_regex_aborts_before_input: one invalid pattern, stdin
nonempty, yet the run produces exit code 1 and no output. -/
theorem bad_regex_aborts_before_input_witness :
    read_lines_from_input_or_files ⟨0, false, false, false, false, []⟩ [['a']]
      (fun _ => .error []) [] (fun _ => none) [['x']] = some (1, []) :=
  bad_regex_aborts_before_input _ _ _ _ _ _ ⟨['a'], by simp, [], rfl⟩

lemma read_lines_append (args : Cli) (regexes : List (List Char)) :
    ∀ (xs ys : List (List Char)) (buf : List Char),
      read_lines args regexes buf (xs ++ ys) =
        match read_lines args regexes buf xs with
        | none => none
        | some (em1, b1) =>
          match read_lines args regexes b1 ys with
          | none => none
          | some (em2, b2) => some (em1 ++ em2, b2) := by
  intro xs
  induction xs with
  | nil =>
    intro ys buf
    simp only [List.nil_append, read_lines]
    cases h : read_lines args regexes buf ys with
    | none => rfl
    | some p =>
      obtain ⟨em, b⟩ := p
      simp
  | cons x xs ih =>
    intro ys buf
    simp only [List.cons_append, read_lines, List.append_eq, ih]
    cases h1 : handle_next_line args regexes x buf with
    | none => rfl
    | some p =>
      obtain ⟨em1, b1⟩ := p
      dsimp only
      cases h2 : read_lines args regexes b1 xs with
      | none => rfl
      | some q =>
        obtain ⟨em2, b2⟩ := q
        dsimp only
        cases h3 : read_lines args regexes b2 ys with
        | none => rfl
        | some r =>
          obtain ⟨em3, b3⟩ := r
          simp

lemma readFiles_eq (args : Cli) (regexes : List (List Char))
    (fs : Nat → Option (List (List Char))) :
    ∀ (files : List Nat) (code : Nat) (buf : List Char),
      readFiles args regexes fs code buf files =
        match read_lines args regexes buf ((files.filterMap fs).flatten) with
        | none => none
        | some (em, b) =>
          some ((if files.any fun f => (fs f).isNone then 1 else code), em, b) := by
  intro files
  induction files with
  | nil =>
    intro code buf
    simp [readFiles, read_lines]
  | cons f rest ih =>
    intro code buf
    cases hf : fs f with
    | none =>
      simp only [readFiles, hf, ih, List.filterMap_cons, List.any_cons, Option.isNone_none,
        Bool.true_or, if_true, ite_self]
    | some flines =>
      simp only [readFiles, hf, ih, List.filterMap_cons, List.flatten_cons, List.any_cons,
        Option.isNone_some, Bool.false_or]
      rw [read_lines_append]
      cases h1 : read_lines args regexes buf flines with
      | none => rfl
      | some p =>
        obtain ⟨em1, b1⟩ := p
        dsimp only
        cases h2 : read_lines args regexes b1 ((rest.filterMap fs).flatten) with
        | none => rfl
        | some q =>
          obtain ⟨em2, b2⟩ := q
          rfl

/-- C7: when some named input file cannot be opened, the run still processes
the lines of every openable file, in order, exactly as it would process
their concatenation; the failed files are skipped and the exit code is 1. -/
theorem failed_file_skipped_exit_one (args : Cli) (patterns : List (List Char))
    (compile : List Char → Except (List Char) (List Char))
    (regexes : List (List Char)) (input_files : List Nat)
    (fs : Nat → Option (List (List Char))) (stdin : List (List Char))
    (hc : compileAll compile patterns = .ok regexes)
    (hne : input_files ≠ [])
    (hf : ∃ f ∈ input_files, fs f = none) :
    read_lines_from_input_or_files args patterns compile input_files fs stdin =
      match read_lines args regexes [] ((input_files.filterMap fs).flatten) with
      | none => none
      | some (em, buf) => some (1, em ++ finalFlush args buf) := by
  have hany : (input_files.any fun f => (fs f).isNone) = true := by
    obtain ⟨f, hmem, hnone⟩ := hf
    exact List.any_eq_true.mpr ⟨f, hmem, by simp [hnone]⟩
  have hemp : input_files.isEmpty = false := by
    cases input_files with
    | nil => simp at hne
    | cons a l => rfl
  simp only [read_lines_from_input_or_files, hc, hemp, Bool.false_eq_true, if_false,
    readFiles_eq, hany, if_true]
  cases h : read_lines args regexes [] ((input_files.filterMap fs).flatten) with
  | none => rfl
  | some p =>
    obtain ⟨em, b⟩ := p
    rfl

/-- Witness for failed_file_skipped_exit_one: file 0 cannot be opened,
file 1 is empty; the conclusion holds at these concrete inputs. -/
theorem failed_file_skipped_exit_one_witness :
    read_lines_from_input_or_files ⟨0, false, false, false, false, []⟩ []
      (fun p => .ok p) [0, 1] (fun n => if n = 1 then some [] else none) [] =
      match read_lines ⟨0, false, false, false, false, []⟩ [] []
          (([0, 1].filterMap fun n => if n = 1 then some [] else none).flatten) with
      | none => none
      | some (em, buf) =>
        some (1, em ++ finalFlush ⟨0, false, false, false, false, []⟩ buf) :=
  failed_file_skipped_exit_one _ _ _ _ _ _ _ rfl (by simp) ⟨0, by simp, rfl⟩

lemma handle_list_no_preserve (args : Cli) (hpli : args.preserve_list_indentation = false)
    (st : LineState) (c : Char) : handle_list args st c = (false, st) := by
  unfold handle_list
  simp [hpli]

lemma handle_word_boundary_list_flag (st : LineState) (b : Bool) :
    (handle_word_boundary st b).has_list_indentation = st.has_list_indentation := by
  unfold handle_word_boundary
  split <;> rfl

lemma add_list_indentation_list_flag (st : LineState) (found : Bool) (c : Char) (b : Bool) :
    (add_list_indentation st found c b).has_list_indentation = st.has_list_indentation := by
  unfold add_list_indentation
  split
  · split <;> rfl
  · rfl

lemma handle_overflow_list_flag (args : Cli) (st : LineState) (b : Bool)
    (em : List (List Char)) (st' : LineState) (skip : Bool)
    (h : handle_overflow args st b = some (em, st', skip)) :
    st'.has_list_indentation = st.has_list_indentation := by
  unfold handle_overflow at h
  split at h
  · cases h
    rfl
  · dsimp only at h
    split at h
    · cases h
    · cases h
      rfl

/-- C9 (amended): with break_words on, preserve_list_indentation off and
max_line_length > 0, the overflow handling of every character leaves the
buffer strictly below the limit (so the invariant holds at the start of
every character step outside the transient resolution itself), and every
character step keeps has_list_indentation false, so the first part applies
to all states a run can reach. -/
theorem buffer_invariant_break_words (args : Cli) (st : LineState) (b : Bool) (c : Char)
    (hbw : args.break_words = true) (hpli : args.preserve_list_indentation = false)
    (hN : 0 < args.max_line_length) (hli : st.has_list_indentation = false) :
    (∀ em st' skip, handle_overflow args st b = some (em, st', skip) →
      strBytes st'.output_line < args.max_line_length) ∧
    (∀ em st', stepChar args st c = some (em, st') →
      st'.has_list_indentation = false) := by
  constructor
  · intro em st' skip h
    unfold handle_overflow at h
    split at h
    case isTrue hov =>
      simp only [Option.some.injEq, Prod.mk.injEq] at h
      obtain ⟨-, h2, -⟩ := h
      rw [← h2]
      simp only [Bool.or_eq_true, decide_eq_true_eq] at hov
      omega
    case isFalse hov =>
      simp only [hbw, Bool.true_or, if_true, hli, Bool.false_eq_true, if_false,
        Option.some.injEq, Prod.mk.injEq] at h
      obtain ⟨-, h2, -⟩ := h
      rw [← h2]
      exact hN
  · intro em st' h
    unfold stepChar at h
    dsimp only at h
    cases hov : handle_overflow args st (is_whitespace c) with
    | none =>
      rw [hov] at h
      cases h
    | some t =>
      obtain ⟨em0, st1, skip⟩ := t
      have hflag : st1.has_list_indentation = false := by
        rw [handle_overflow_list_flag args st (is_whitespace c) em0 st1 skip hov, hli]
      rw [hov] at h
      dsimp only at h
      cases skip with
      | true =>
        simp only [if_true, Option.some.injEq, Prod.mk.injEq] at h
        obtain ⟨-, h2⟩ := h
        rw [← h2, hflag]
      | false =>
        simp only [Bool.false_eq_true, if_false, handle_list_no_preserve args hpli,
          Option.some.injEq, Prod.mk.injEq] at h
        obtain ⟨-, h2⟩ := h
        rw [← h2, add_list_indentation_list_flag, handle_word_boundary_list_flag, hflag]

/-- Witness for buffer_invariant_break_words at a concrete configuration,
state and character. -/
theorem buffer_invariant_break_words_witness :
    strBytes ([] : List Char) < 3 ∧
    (⟨['a'], false, true, 0, [], false, true⟩ : LineState).has_list_indentation = false := by
  have h := buffer_invariant_break_words ⟨3, true, false, false, false, []⟩ (initState [])
    false 'a' rfl rfl (by decide) rfl
  exact ⟨h.1 [] ⟨[], false, false, 0, [], false, true⟩ false (by decide),
    h.2 [] ⟨['a'], false, true, 0, [], false, true⟩ (by decide)⟩

lemma one_le_charBytes (c : Char) : 1 ≤ charBytes c := by
  unfold charBytes
  repeat' split
  all_goals omega

lemma length_le_strBytes : ∀ s : List Char, s.length ≤ strBytes s := by
  intro s
  induction s with
  | nil => simp [strBytes]
  | cons c rest ih =>
    have := one_le_charBytes c
    simp only [List.length_cons, strBytes]
    omega

lemma dropWhile_length_le (p : Char → Bool) : ∀ l : List Char,
    (l.dropWhile p).length ≤ l.length := by
  intro l
  induction l with
  | nil => simp
  | cons c rest ih =>
    rw [List.dropWhile_cons]
    split
    · exact le_trans ih (by simp)
    · exact le_refl _

lemma write_line_length_le (args : Cli) (l : List Char) :
    (write_line args l).length ≤ l.length := by
  unfold write_line
  split
  · exact le_refl _
  · unfold trimEnd
    simp only [List.length_reverse]
    exact (dropWhile_length_le _ _).trans (by simp)

lemma handle_overflow_width (args : Cli) (hbw : args.break_words = true)
    (hN : 0 < args.max_line_length) (st : LineState) (b : Bool)
    (hli : st.has_list_indentation = false)
    (hlen : st.output_line.length ≤ args.max_line_length)
    (em : List (List Char)) (st1 : LineState) (skip : Bool)
    (h : handle_overflow args st b = some (em, st1, skip)) :
    (∀ l ∈ em, l.length ≤ args.max_line_length) ∧
      st1.output_line.length < args.max_line_length ∧
      st1.has_list_indentation = false := by
  unfold handle_overflow at h
  split at h
  case isTrue hov =>
    cases h
    refine ⟨by simp, ?_, hli⟩
    simp only [Bool.or_eq_true, decide_eq_true_eq] at hov
    have := length_le_strBytes st.output_line
    omega
  case isFalse hov =>
    dsimp only at h
    simp only [hbw, Bool.true_or, if_true, hli, Bool.false_eq_true, if_false,
      Option.some.injEq, Prod.mk.injEq] at h
    obtain ⟨h1, h2, h3⟩ := h
    refine ⟨?_, ?_, ?_⟩
    · intro l hl
      rw [← h1] at hl
      simp only [List.mem_singleton] at hl
      rw [hl]
      exact (write_line_length_le args st.output_line).trans hlen
    · rw [← h2]
      simpa using hN
    · rw [← h2]

lemma stepChar_width (args : Cli) (hbw : args.break_words = true)
    (hpli : args.preserve_list_indentation = false) (hN : 0 < args.max_line_length)
    (st : LineState) (c : Char) (em : List (List Char)) (st' : LineState)
    (hli : st.has_list_indentation = false)
    (hlen : st.output_line.length ≤ args.max_line_length)
    (h : stepChar args st c = some (em, st')) :
    (∀ l ∈ em, l.length ≤ args.max_line_length) ∧
      st'.output_line.length ≤ args.max_line_length ∧
      st'.has_list_indentation = false := by
  unfold stepChar at h
  dsimp only at h
  cases hov : handle_overflow args st (is_whitespace c) with
  | none =>
    rw [hov] at h
    cases h
  | some t =>
    obtain ⟨em0, st1, skip⟩ := t
    rw [hov] at h
    dsimp only at h
    obtain ⟨hem0, hlt, hflag⟩ :=
      handle_overflow_width args hbw hN st (is_whitespace c) hli hlen em0 st1 skip hov
    cases skip with
    | true =>
      simp only [if_true, Option.some.injEq, Prod.mk.injEq] at h
      obtain ⟨h1, h2⟩ := h
      rw [← h1, ← h2]
      exact ⟨hem0, le_of_lt hlt, hflag⟩
    | false =>
      simp only [Bool.false_eq_true, if_false, handle_list_no_preserve args hpli,
        Option.some.injEq, Prod.mk.injEq] at h
      obtain ⟨h1, h2⟩ := h
      rw [← h1, ← h2]
      refine ⟨hem0, ?_, ?_⟩
      · rw [add_list_indentation_output_line]
        show ((handle_word_boundary st1 (is_whitespace c)).output_line ++ [c]).length ≤ _
        rw [handle_word_boundary_output_line]
        simp only [List.length_append, List.length_singleton]
        omega
      · rw [add_list_indentation_list_flag]
        simp only [handle_word_boundary_list_flag]
        exact hflag

lemma processChars_width (args : Cli) (hbw : args.break_words = true)
    (hpli : args.preserve_list_indentation = false) (hN : 0 < args.max_line_length) :
    ∀ (line : List Char) (st : LineState), st.has_list_indentation = false →
      st.output_line.length ≤ args.max_line_length →
      ∀ em st', processChars args st line = some (em, st') →
        (∀ l ∈ em, l.length ≤ args.max_line_length) ∧
        st'.output_line.length ≤ args.max_line_length ∧
        st'.has_list_indentation = false := by
  intro line
  induction line with
  | nil =>
    intro st h1 h2 em st' h
    cases h
    exact ⟨by simp, h2, h1⟩
  | cons c rest ih =>
    intro st h1 h2 em st' h
    unfold processChars at h
    cases hs : stepChar args st c with
    | none =>
      rw [hs] at h
      cases h
    | some p =>
      obtain ⟨em1, st1⟩ := p
      rw [hs] at h
      dsimp only at h
      obtain ⟨he1, hl1, hf1⟩ := stepChar_width args hbw hpli hN st c em1 st1 h1 h2 hs
      cases hr : processChars args st1 rest with
      | none =>
        rw [hr] at h
        cases h
      | some q =>
        obtain ⟨em2, st2⟩ := q
        rw [hr] at h
        dsimp only at h
        obtain ⟨he2, hl2, hf2⟩ := ih st1 hf1 hl1 em2 st2 hr
        cases h
        refine ⟨?_, hl2, hf2⟩
        intro l hl
        rcases List.mem_append.mp hl with hm | hm
        · exact he1 l hm
        · exact he2 l hm

lemma handle_next_line_width (args : Cli) (regexes : List (List Char))
    (hbw : args.break_words = true) (hpli : args.preserve_list_indentation = false)
    (hN : 0 < args.max_line_length) (hrw : args.rewrap = false)
    (line : List Char) (em : List (List Char)) (buf' : List Char)
    (h : handle_next_line args regexes line [] = some (em, buf')) :
    (∀ l ∈ em, l.length ≤ args.max_line_length) ∧ buf' = [] := by
  unfold handle_next_line at h
  simp only [hrw, Bool.false_and, Bool.false_eq_true, if_false] at h
  cases hp : processChars args (initState [])
      (applySubstLoop regexes args.replacement line) with
  | none =>
    rw [hp] at h
    cases h
  | some q =>
    obtain ⟨emP, stF⟩ := q
    rw [hp] at h
    dsimp only at h
    obtain ⟨heP, hlP, -⟩ := processChars_width args hbw hpli hN
      (applySubstLoop regexes args.replacement line) (initState []) rfl
      (by simp [initState]) emP stF hp
    cases h
    refine ⟨?_, rfl⟩
    intro l hl
    simp only [List.nil_append, List.mem_append, List.mem_singleton] at hl
    rcases hl with hm | hm
    · exact heP l hm
    · rw [hm]
      exact (write_line_length_le args stF.output_line).trans hlP

lemma read_lines_width (args : Cli) (regexes : List (List Char))
    (hbw : args.break_words = true) (hpli : args.preserve_list_indentation = false)
    (hN : 0 < args.max_line_length) (hrw : args.rewrap = false) :
    ∀ (lines : List (List Char)) (em : List (List Char)) (buf' : List Char),
      read_lines args regexes [] lines = some (em, buf') →
      (∀ l ∈ em, l.length ≤ args.max_line_length) ∧ buf' = [] := by
  intro lines
  induction lines with
  | nil =>
    intro em buf' h
    cases h
    exact ⟨by simp, rfl⟩
  | cons x xs ih =>
    intro em buf' h
    unfold read_lines at h
    cases h1 : handle_next_line args regexes x [] with
    | none =>
      rw [h1] at h
      cases h
    | some p =>
      obtain ⟨em1, b1⟩ := p
      rw [h1] at h
      dsimp only at h
      obtain ⟨he1, hb1⟩ := handle_next_line_width args regexes hbw hpli hN hrw x em1 b1 h1
      subst hb1
      cases h2 : read_lines args regexes [] xs with
      | none =>
        rw [h2] at h
        cases h
      | some q =>
        obtain ⟨em2, b2⟩ := q
        rw [h2] at h
        dsimp only at h
        obtain ⟨he2, hb2⟩ := ih em2 b2 h2
        cases h
        refine ⟨?_, hb2⟩
        intro l hl
        rcases List.mem_append.mp hl with hm | hm
        · exact he1 l hm
        · exact he2 l hm

/-- C3 (amended): with max_line_length = N > 0, break_words on,
preserve_list_indentation off and rewrap off, every emitted output line has
character length at most N, for every input and substitution list. -/
theorem width_bound_break_words (args : Cli) (regexes : List (List Char))
    (lines : List (List Char)) (out : List (List Char))
    (hbw : args.break_words = true) (hpli : args.preserve_list_indentation = false)
    (hrw : args.rewrap = false) (hN : 0 < args.max_line_length)
    (h : processInput args regexes lines = some out) :
    ∀ l ∈ out, l.length ≤ args.max_line_length := by
  unfold processInput at h
  cases hr : read_lines args regexes [] lines with
  | none =>
    rw [hr] at h
    cases h
  | some p =>
    obtain ⟨em, buf⟩ := p
    rw [hr] at h
    dsimp only at h
    obtain ⟨hem, -⟩ := read_lines_width args regexes hbw hpli hN hrw lines em buf hr
    cases h
    intro l hl
    rw [finalFlush, hrw] at hl
    simp only [Bool.false_eq_true, if_false, List.append_nil] at hl
    exact hem l hl

/-- Witness for width_bound_break_words at width 3 on input line "ab". -/
theorem width_bound_break_words_witness : ("ab".data).length ≤ 3 :=
  width_bound_break_words ⟨3, true, false, false, false, []⟩ [] ["ab".data] ["ab".data]
    rfl rfl rfl (by decide) (by decide) "ab".data (by simp)

lemma splitAtByte_succ_cons (k : Nat) (c : Char) (rest : List Char) :
    splitAtByte (k + 1) (c :: rest) =
      if charBytes c ≤ k + 1 then
        match splitAtByte (k + 1 - charBytes c) rest with
        | some (a, b) => some (c :: a, b)
        | none => none
      else none := by
  rfl

lemma splitAtByte_at_ws_one : ∀ (p : List Char) (w : Char) (q : List Char),
    charBytes w = 1 →
    splitAtByte (strBytes p + 1) (p ++ w :: q) = some (p ++ [w], q) := by
  intro p
  induction p with
  | nil =>
    intro w q hw
    simp only [strBytes, List.nil_append]
    rw [splitAtByte_succ_cons, if_pos (by omega)]
    have harg : 0 + 1 - charBytes w = 0 := by omega
    rw [harg]
    simp [splitAtByte]
  | cons c p' ih =>
    intro w q hw
    simp only [strBytes, List.cons_append]
    rw [splitAtByte_succ_cons,
      if_pos (show charBytes c ≤ charBytes c + strBytes p' + 1 by omega)]
    have harg : charBytes c + strBytes p' + 1 - charBytes c = strBytes p' + 1 := by omega
    rw [harg, ih w q hw]

lemma splitAtByte_at_ws_multi : ∀ (p : List Char) (w : Char) (q : List Char),
    charBytes w ≠ 1 →
    splitAtByte (strBytes p + 1) (p ++ w :: q) = none := by
  intro p
  induction p with
  | nil =>
    intro w q hw
    have := one_le_charBytes w
    simp only [strBytes, List.nil_append]
    rw [splitAtByte_succ_cons, if_neg (by omega)]
  | cons c p' ih =>
    intro w q hw
    simp only [strBytes, List.cons_append]
    rw [splitAtByte_succ_cons,
      if_pos (show charBytes c ≤ charBytes c + strBytes p' + 1 by omega)]
    have harg : charBytes c + strBytes p' + 1 - charBytes c = strBytes p' + 1 := by omega
    rw [harg, ih w q hw]

lemma handle_list_word_end (args : Cli) (st : LineState) (c : Char) :
    ((handle_list args st c).2).has_last_word_end = st.has_last_word_end ∧
      ((handle_list args st c).2).last_word_end = st.last_word_end := by
  unfold handle_list
  dsimp only
  split <;> exact ⟨rfl, rfl⟩

lemma add_list_indentation_word_end (st : LineState) (found : Bool) (c : Char) (b : Bool) :
    (add_list_indentation st found c b).has_last_word_end = st.has_last_word_end ∧
      (add_list_indentation st found c b).last_word_end = st.last_word_end := by
  unfold add_list_indentation
  split
  · split <;> exact ⟨rfl, rfl⟩
  · exact ⟨rfl, rfl⟩

lemma handle_overflow_word_inv (args : Cli) (st : LineState) (b : Bool)
    (em : List (List Char)) (st1 : LineState) (skip : Bool)
    (h : handle_overflow args st b = some (em, st1, skip)) (hinv : WordEndInv st) :
    WordEndInv st1 := by
  unfold handle_overflow at h
  split at h
  · cases h
    exact hinv
  · dsimp only at h
    split at h
    · cases h
    · cases h
      intro hc
      simp at hc

/-- C4: with break_words off, the engine never splits in the middle of a
non-whitespace run.  Formally: the recorded word-boundary always points at a
whitespace character of the buffer (an invariant that holds initially and is
preserved by every character step), and under that invariant every line
emitted by the overflow handling either is the whole buffer flushed upon
reading a whitespace character, or ends with a whitespace character, so
output lines end at word boundaries; an over-long run is carried whole (the
no-split branch emits nothing). -/
theorem word_preservation_no_midword_split (args : Cli)
    (hbw : args.break_words = false) :
    (∀ st c em st', WordEndInv st → stepChar args st c = some (em, st') →
      WordEndInv st') ∧
    (∀ buf, WordEndInv (initState buf)) ∧
    (∀ st b em st' skip, WordEndInv st →
      handle_overflow args st b = some (em, st', skip) →
      em = [] ∨ b = true ∨
        ∃ l0 w, em = [write_line args (l0 ++ [w])] ∧ is_whitespace w = true) := by
  refine ⟨?_, ?_, ?_⟩
  · intro st c em st' hinv h
    unfold stepChar at h
    dsimp only at h
    cases hov : handle_overflow args st (is_whitespace c) with
    | none =>
      rw [hov] at h
      cases h
    | some t =>
      obtain ⟨em0, st1, skip⟩ := t
      rw [hov] at h
      dsimp only at h
      have hinv1 : WordEndInv st1 :=
        handle_overflow_word_inv args st (is_whitespace c) em0 st1 skip hov hinv
      cases skip with
      | true =>
        simp only [if_true, Option.some.injEq, Prod.mk.injEq] at h
        obtain ⟨-, h2⟩ := h
        rw [← h2]
        exact hinv1
      | false =>
        simp only [Bool.false_eq_true, if_false, Option.some.injEq, Prod.mk.injEq] at h
        obtain ⟨-, h2⟩ := h
        rw [← h2]
        intro hlast
        rw [(add_list_indentation_word_end _ _ _ _).1] at hlast
        simp only [add_list_indentation_output_line, (add_list_indentation_word_end _ _ _ _).2]
        cases hb : is_whitespace c with
        | true =>
          simp only [handle_word_boundary, reduceIte]
          exact ⟨((handle_list args st1 c).2).output_line, c, [], rfl, rfl, hb⟩
        | false =>
          simp only [handle_word_boundary, hb, reduceIte] at hlast ⊢
          simp only [handle_list_output_line, (handle_list_word_end args st1 c).1,
            (handle_list_word_end args st1 c).2] at hlast ⊢
          obtain ⟨p, w, q, hbuf, hbytes, hws⟩ := hinv1 hlast
          refine ⟨p, w, q ++ [c], ?_, hbytes, hws⟩
          rw [hbuf]
          simp
  · intro buf
    intro hc
    simp [initState] at hc
  · intro st b em st' skip hinv h
    unfold handle_overflow at h
    split at h
    · cases h
      exact Or.inl rfl
    · cases b with
      | true => exact Or.inr (Or.inl rfl)
      | false =>
        dsimp only at h
        rw [hbw] at h
        simp only [Bool.or_self, Bool.false_eq_true, if_false] at h
        cases hlw : st.has_last_word_end with
        | false =>
          rw [hlw] at h
          simp only [Bool.false_eq_true, if_false] at h
          cases h
          exact Or.inl rfl
        | true =>
          rw [hlw] at h
          simp only [if_true] at h
          obtain ⟨p, w, q, hbuf, hbytes, hws⟩ := hinv hlw
          rw [hbuf, ← hbytes] at h
          by_cases hcw : charBytes w = 1
          · rw [splitAtByte_at_ws_one p w q hcw] at h
            dsimp only at h
            cases h
            exact Or.inr (Or.inr ⟨p, w, rfl, hws⟩)
          · rw [splitAtByte_at_ws_multi p w q hcw] at h
            cases h

/-- Witness for word_preservation_no_midword_split: the invariant holds
after one concrete step, and a concrete overflow of the buffer "ab cd" at
width 3 emits a line ending in the recorded whitespace. -/
theorem word_preservation_no_midword_split_witness :
    WordEndInv ⟨['a'], false, true, 0, [], false, true⟩ ∧
    ([write_line ⟨3, false, false, false, false, []⟩ "ab ".data] = [] ∨ false = true ∨
      ∃ l0 w, [write_line ⟨3, false, false, false, false, []⟩ "ab ".data] =
        [write_line ⟨3, false, false, false, false, []⟩ (l0 ++ [w])] ∧
        is_whitespace w = true) := by
  have h := word_preservation_no_midword_split ⟨3, false, false, false, false, []⟩ rfl
  constructor
  · exact h.1 (initState []) 'a' [] ⟨['a'], false, true, 0, [], false, true⟩
      (h.2.1 []) (by decide)
  · exact h.2.2 ⟨"ab cd".data, true, true, 2, [], false, true⟩ false
      [write_line ⟨3, false, false, false, false, []⟩ "ab ".data]
      ⟨"cd".data, false, true, 2, [], false, true⟩ false
      (fun _ => ⟨"ab".data, ' ', "cd".data, rfl, rfl, rfl⟩) (by decide)

end Formatter
